import Mathlib

/-!
Verification model of the transcript-normalization core of the repository
`AI-translate-by-transcript`:

* `src/utils.ts` : `isChineseChar`, `parseTranscript`, `formatTime`
* `src/components/ImportDialog.tsx` : `normalizeItem`, `convertRawDataToLines`

Shallow embedding conventions:

* JavaScript strings are modelled as `Str := List Char` so that every string
  operation used by the code (trim, split, regex matches that the code
  performs) is a structural recursion that the kernel can evaluate.
* JavaScript numbers are modelled exactly: integers and decimal fractions
  become `ℚ`; the special values `NaN` and `±Infinity` that `parseFloat`
  can produce are the extra constructors of `JNum`.  (IEEE-754 rounding is
  not modelled; every arithmetic operation the code performs on parsed
  times is exact at the magnitudes involved.)
* `Math.random()`-generated identifiers are modelled by threading an
  explicit generator `gen : ℕ → Str` (the n-th call of `Math.random()
  .toString(36).substr(2, 9)` returns `gen n`).
* Field accesses on untyped JSON (`item.en`, …) are modelled on a JSON
  value type `JVal`; accesses that throw in JavaScript (property access on
  `null`/`undefined`, calling `.trim()` on a non-string) are modelled with
  `Except Unit`.
-/

namespace TS

/-- JavaScript strings, as lists of characters. -/
abbrev Str := List Char

/-- The ECMAScript whitespace set used by `String.prototype.trim`, by the
`\s` regex class and by `parseFloat`'s leading-whitespace skipping
(WhiteSpace ∪ LineTerminator). -/
def jsWhitespace (c : Char) : Bool :=
  c = ' ' || c = '\t' || c = '\n' || c = '\r' ||
  c.toNat = 0xb || c.toNat = 0xc || c.toNat = 0xa0 || c.toNat = 0x1680 ||
  (0x2000 ≤ c.toNat && c.toNat ≤ 0x200a) ||
  c.toNat = 0x2028 || c.toNat = 0x2029 || c.toNat = 0x202f ||
  c.toNat = 0x205f || c.toNat = 0x3000 || c.toNat = 0xfeff

/-- ECMAScript line terminators that can still occur inside a line after
splitting on `\r?\n` (a bare `\n` cannot).  The regex metacharacter `.`
does not match these. -/
def isLineTerm (c : Char) : Bool :=
  c = '\r' || c.toNat = 0x2028 || c.toNat = 0x2029

/-- `String.prototype.trim`. -/
def jsTrim (s : Str) : Str :=
  ((s.dropWhile jsWhitespace).reverse.dropWhile jsWhitespace).reverse

/-- `text.split(/\r?\n/)`, modelled as splitting on `'\n'`.  A `\r` that
directly precedes a `\n` is left at the end of its line; since every line
is immediately passed through `trim` (which removes `\r`), and a `\r` not
adjacent to a `\n` is not split on by the regex either, the two
formulations agree on everything `parseTranscript` does with the lines. -/
def splitLines : Str → List Str
  | [] => [[]]
  | c :: cs =>
    match splitLines cs with
    | [] => [[]]
    | h :: t => if c = '\n' then [] :: h :: t else (c :: h) :: t

/-- `time.split(sep)` for a one-character separator (used with `':'` and
`'.'` by `convertRawDataToLines`). -/
def splitOnChar (sep : Char) : Str → List Str
  | [] => [[]]
  | c :: cs =>
    match splitOnChar sep cs with
    | [] => [[]]
    | h :: t => if c = sep then [] :: h :: t else (c :: h) :: t

/-- Numeric value of an ASCII digit. -/
def dval (c : Char) : ℕ := c.toNat - 48

/-- The timestamp regex `/^(\d{1,2}):(\d{2})$/` of `parseTranscript`,
returning `parseInt(m[1], 10) * 60 + parseInt(m[2], 10)` on a match
(utils.ts line 31). -/
def matchTime (l : Str) : Option ℕ :=
  match l with
  | [a, ':', c, d] =>
    if a.isDigit && c.isDigit && d.isDigit then
      some (dval a * 60 + (10 * dval c + dval d))
    else none
  | [a, b, ':', c, d] =>
    if a.isDigit && b.isDigit && c.isDigit && d.isDigit then
      some ((10 * dval a + dval b) * 60 + (10 * dval c + dval d))
    else none
  | _ => none

/-- The character ranges of `isChineseChar` in utils.ts:
`[一-龥]|[　-〿]|[！-／]|[：-＠]`. -/
def isChineseCharRange (c : Char) : Bool :=
  (0x4e00 ≤ c.toNat && c.toNat ≤ 0x9fa5) ||
  (0x3000 ≤ c.toNat && c.toNat ≤ 0x303f) ||
  (0xff01 ≤ c.toNat && c.toNat ≤ 0xff0f) ||
  (0xff1a ≤ c.toNat && c.toNat ≤ 0xff20)

/-- `isChineseChar` (utils.ts lines 7-9): the regex `test`, i.e. some
character of the string lies in the ranges. -/
def isChineseStr (s : Str) : Bool := s.any isChineseCharRange

/-- Colon characters of the speaker regex (ASCII and fullwidth). -/
def isColon (c : Char) : Bool := c = ':' || c = '：'

/-- The speaker regex `/^([^:：]+)[:：]\s*(.*)$/` (utils.ts line 22),
returning the trimmed capture groups exactly as lines 55-56 do.

The regex matches iff the line contains a colon at index ≥ 1 and, after
dropping the maximal `\s*` run following the first colon, the remainder
contains no line terminator (`.` does not match line terminators and `$`
only matches at the end of the input).  Group 1 is the part before the
first colon, group 2 the remainder after the whitespace run. -/
def matchSpeaker (l : Str) : Option (Str × Str) :=
  let pre := l.takeWhile (fun c => !isColon c)
  if pre.length = l.length then none
  else if pre.length = 0 then none
  else
    let rest := (l.drop (pre.length + 1)).dropWhile jsWhitespace
    if rest.any isLineTerm then none
    else some (jsTrim pre, jsTrim rest)

/-- A `{ speaker, text }` segment as pushed into `englishSegments` /
`chineseSegments` (utils.ts lines 45-46). -/
structure Seg where
  speaker : Str
  text : Str
  deriving DecidableEq, Inhabited

/-- Word/phrase tag of `Highlight.type` (types.ts). -/
inductive HlKind where
  | word
  | phrase
  deriving DecidableEq

/-- JSON-ish values flowing through the untyped (`any`) import pipeline.
`vnumNaN` stands for the JavaScript number `NaN`; finite numbers are
carried exactly as rationals and infinities as `vnumInf`. -/
inductive JVal where
  | vundefined : JVal
  | vnull : JVal
  | vbool : Bool → JVal
  | vnum : ℚ → JVal
  | vnumNaN : JVal
  | vnumInf : Bool → JVal
  | vstr : Str → JVal
  | varr : List JVal → JVal
  | vobj : List (Str × JVal) → JVal

/-- The `Highlight` record built by `normalizeItem` (ImportDialog.tsx
lines 88-94); the field values come from `any`-typed input, so they are
`JVal`s.  The source field `example` is called `ex` here because `example`
is a Lean keyword. -/
structure Highlight where
  text : JVal
  ipa : JVal
  meaning : JVal
  ex : JVal
  kind : HlKind

/-- A `DialogueSegment` as produced by `parseTranscript` (types.ts); that
producer only ever writes genuine strings and an empty highlight list. -/
structure DialogueSegment where
  speaker : Str
  english : Str
  chinese : Str
  highlights : List Highlight

/-- A `TranscriptLine` as produced by `parseTranscript` (types.ts). -/
structure TranscriptLine where
  id : Str
  startTime : ℕ
  timestamp : Str
  segments : List DialogueSegment

/-- A raw block of phase 1 of `parseTranscript` (utils.ts line 24). -/
structure RawBlock where
  timestamp : Str
  startTime : ℕ
  contentLines : List Str
  deriving DecidableEq

/-- Phase-1 accumulation once a current block exists: a timestamp line
flushes the current block and starts a new one; any other line is pushed
onto `currentRawBlock.contentLines` (utils.ts lines 28-41; the source
pushes the block object first and keeps mutating its `contentLines`
through the alias, which is the same as flushing it when the next
timestamp arrives). -/
def stage1Go (cur : RawBlock) : List Str → List RawBlock
  | [] => [cur]
  | l :: ls =>
    match matchTime l with
    | some t => cur :: stage1Go ⟨l, t, []⟩ ls
    | none => stage1Go { cur with contentLines := cur.contentLines ++ [l] } ls

/-- Phase 1 of `parseTranscript`: before the first timestamp line,
`currentRawBlock` is `null` and non-timestamp lines are dropped. -/
def stage1 : List Str → List RawBlock
  | [] => []
  | l :: ls =>
    match matchTime l with
    | some t => stage1Go ⟨l, t, []⟩ ls
    | none => stage1 ls

/-- `text.split(/\r?\n/).map(l => l.trim()).filter(l => l)` (utils.ts
line 19); a trimmed line is falsy iff it is empty. -/
def cleanLines (text : Str) : List Str :=
  ((splitLines text).map jsTrim).filter (fun l => l ≠ [])

/-- `targetList[targetList.length - 1].text += "\n" + line` guarded by
`targetList.length > 0` (utils.ts lines 69-72). -/
def appendLast : List Seg → Str → List Seg
  | [], _ => []
  | [x], l => [{ x with text := x.text ++ '\n' :: l }]
  | x :: y :: xs, l => x :: appendLast (y :: xs) l

/-- State of the classification loop of phase 2 (utils.ts lines 45-49):
the two segment lists and the `lastIsChinese` flag.  (`lastSpeaker` is
assigned in the source but never read, so it is not modelled.) -/
structure CState where
  eng : List Seg
  chi : List Seg
  lastIsChinese : Bool

/-- One iteration of the classification loop (utils.ts lines 51-74). -/
def classifyStep (st : CState) (l : Str) : CState :=
  match matchSpeaker l with
  | some (sp, txt) =>
    if isChineseStr txt then
      { st with chi := st.chi ++ [⟨sp, txt⟩], lastIsChinese := true }
    else
      { st with eng := st.eng ++ [⟨sp, txt⟩], lastIsChinese := false }
  | none =>
    if st.lastIsChinese then { st with chi := appendLast st.chi l }
    else { st with eng := appendLast st.eng l }

/-- The classification loop over a block's content lines. -/
def classify (ls : List Str) : CState :=
  ls.foldl classifyStep ⟨[], [], false⟩

/-- The inner scan `for j` of the pairing loop (utils.ts lines 85-90):
first index `j ≥ j₀` (scanning `cs = chineseSegments.drop j₀`) that is
not used and whose speaker equals the English speaker. -/
def findChiAux (used : List ℕ) (sp : Str) : List Seg → ℕ → Option ℕ
  | [], _ => none
  | c :: cs, j =>
    if !used.contains j && decide (c.speaker = sp) then some j
    else findChiAux used sp cs (j + 1)

/-- Number of loop iterations the inner scan executes (index found plus
one, or the whole list when nothing matches). -/
def findChiCost (used : List ℕ) (sp : Str) : List Seg → ℕ → ℕ
  | [], _ => 0
  | c :: cs, j =>
    if !used.contains j && decide (c.speaker = sp) then 1
    else 1 + findChiCost used sp cs (j + 1)

/-- Choice of the Chinese index for the `i`-th English segment: the
speaker scan, then the same-index fallback (utils.ts lines 84-95). -/
def pickChi (chis : List Seg) (used : List ℕ) (i : ℕ) (sp : Str) : Option ℕ :=
  match findChiAux used sp chis 0 with
  | some j => some j
  | none => if i < chis.length && !used.contains i then some i else none

/-- The pairing loop (utils.ts lines 81-115): produces the English-led
merged segments and the final used-index set.  The JS `Set` is modelled
as the list of inserted indices. -/
def mergeAux (chis : List Seg) : List Seg → ℕ → List ℕ → List DialogueSegment × List ℕ
  | [], _, used => ([], used)
  | e :: es, i, used =>
    match pickChi chis used i e.speaker with
    | some j =>
      let r := mergeAux chis es (i + 1) (j :: used)
      (⟨e.speaker, e.text, (chis.getD j default).text, []⟩ :: r.1, r.2)
    | none =>
      let r := mergeAux chis es (i + 1) used
      (⟨e.speaker, e.text, [], []⟩ :: r.1, r.2)

/-- Total number of inner-scan iterations performed by the pairing loop. -/
def mergeCostAux (chis : List Seg) : List Seg → ℕ → List ℕ → ℕ
  | [], _, _ => 0
  | e :: es, i, used =>
    findChiCost used e.speaker chis 0 +
      match pickChi chis used i e.speaker with
      | some j => mergeCostAux chis es (i + 1) (j :: used)
      | none => mergeCostAux chis es (i + 1) used

/-- The leftover loop (utils.ts lines 118-128): unused Chinese segments
appended with an empty English side, scanning from index `j₀`. -/
def leftoversAux (used : List ℕ) : List Seg → ℕ → List DialogueSegment
  | [], _ => []
  | c :: cs, j =>
    if used.contains j then leftoversAux used cs (j + 1)
    else ⟨c.speaker, [], c.text, []⟩ :: leftoversAux used cs (j + 1)

/-- Phase-2 pairing of one block's English and Chinese segment lists. -/
def mergeSegments (eng chis : List Seg) : List DialogueSegment :=
  let r := mergeAux chis eng 0 []
  r.1 ++ leftoversAux r.2 chis 0

/-- `mergeCostAux` at the loop's initial state. -/
def mergeCost (eng chis : List Seg) : ℕ := mergeCostAux chis eng 0 []

/-- Everything phase 2 does with one raw block's content lines. -/
def blockSegs (ls : List Str) : List DialogueSegment :=
  let st := classify ls
  mergeSegments st.eng st.chi

/-- Enumeration with indices starting at `n` (models loop indices). -/
def idxFrom (n : ℕ) : List α → List (ℕ × α)
  | [] => []
  | a :: as => (n, a) :: idxFrom (n + 1) as

/-- `parseTranscript` (utils.ts lines 17-139).  `gen i` is the id the
`i`-th `Math.random().toString(36).substr(2, 9)` call produces.  The
final `.sort((a, b) => a.startTime - b.startTime)` is a stable sort by
`startTime`; for a comparator induced by a total preorder key the stable
sorted result is unique, so the stable `List.insertionSort` models it. -/
def parseTranscript (gen : ℕ → Str) (text : Str) : List TranscriptLine :=
  let raws := stage1 (cleanLines text)
  let blocks := (idxFrom 0 raws).map
    (fun p => TranscriptLine.mk (gen p.1) p.2.startTime p.2.timestamp (blockSegs p.2.contentLines))
  List.insertionSort (fun a b => a.startTime ≤ b.startTime) blocks

/-- JavaScript numbers as produced by `parseFloat` and the time
arithmetic: `NaN`, signed infinity, or an exact finite value. -/
inductive JNum where
  | nan : JNum
  | inf : Bool → JNum
  | fin : ℚ → JNum
  deriving DecidableEq

/-- Value of a digit string read in base 10. -/
def digitsToNat (s : Str) : ℕ := s.foldl (fun n c => 10 * n + dval c) 0

/-- Exponent part of a `StrDecimalLiteral`: `e`/`E` already consumed; an
optional sign followed by at least one digit, otherwise invalid (and then
`parseFloat` ignores the exponent part as trailing garbage). -/
def parseExp (r : Str) : Option ℤ :=
  let se : Bool × Str :=
    match r with
    | '-' :: rr => (true, rr)
    | '+' :: rr => (false, rr)
    | rr => (false, rr)
  let ds := se.2.takeWhile Char.isDigit
  if ds = [] then none
  else some (if se.1 then -(digitsToNat ds : ℤ) else (digitsToNat ds : ℤ))

/-- ECMAScript `parseFloat`: skip leading whitespace, read an optional
sign, then the longest prefix that is `Infinity` or decimal digits with
optional fraction and exponent; `NaN` when no digits are found.  The
numeric value is computed exactly in `ℚ` (no IEEE rounding). -/
def parseFloat (s : Str) : JNum :=
  let t := s.dropWhile jsWhitespace
  let sg : Bool × Str :=
    match t with
    | '-' :: r => (true, r)
    | '+' :: r => (false, r)
    | r => (false, r)
  let neg := sg.1
  let r := sg.2
  if ("Infinity".data).isPrefixOf r then JNum.inf (!neg)
  else
    let ip := r.takeWhile Char.isDigit
    let r1 := r.drop ip.length
    let fp : Str :=
      match r1 with
      | '.' :: r2 => r2.takeWhile Char.isDigit
      | _ => []
    let r2 : Str :=
      match r1 with
      | '.' :: rr => rr.drop fp.length
      | _ => r1
    if ip = [] ∧ fp = [] then JNum.nan
    else
      let mant : ℚ := (digitsToNat ip : ℚ) + (digitsToNat fp : ℚ) / (10 : ℚ) ^ fp.length
      let expv : Option ℤ :=
        match r2 with
        | 'e' :: r3 => parseExp r3
        | 'E' :: r3 => parseExp r3
        | _ => none
      let v : ℚ :=
        match expv with
        | some e => mant * (10 : ℚ) ^ e
        | none => mant
      JNum.fin (if neg then -v else v)

/-- JavaScript truthiness of a `JVal`. -/
def truthy : JVal → Bool
  | .vundefined => false
  | .vnull => false
  | .vbool b => b
  | .vnum q => decide (q ≠ 0)
  | .vnumNaN => false
  | .vnumInf _ => true
  | .vstr s => decide (s ≠ [])
  | .varr _ => true
  | .vobj _ => true

/-- `a || b`: the first operand when truthy, otherwise the second.  (JS
`||` short-circuits; in `normalizeItem` every operand is a property read
on the same receiver, so strict evaluation produces the same value and
the same errors.) -/
def jOr (a b : JVal) : JVal := if truthy a then a else b

/-- Object property lookup among an object's own fields (`undefined` when
absent). -/
def lookupField (fs : List (Str × JVal)) (k : Str) : JVal :=
  match fs with
  | [] => .vundefined
  | p :: ps => if p.1 = k then p.2 else lookupField ps k

/-- `item.k`: throws (TypeError) on `null`/`undefined`; yields the field
on objects; yields `undefined` on every other primitive and on arrays for
the identifier keys this code reads. -/
def getField : JVal → Str → Except Unit JVal
  | .vnull, _ => .error ()
  | .vundefined, _ => .error ()
  | .vobj fs, k => .ok (lookupField fs k)
  | _, _ => .ok .vundefined

/-- Decimal digits of a natural number (JS integer `toString`). -/
def natToStr (n : ℕ) : Str := Nat.toDigits 10 n

/-- Decimal representation of an integer (JS integer `toString`). -/
def intToStr : ℤ → Str
  | .ofNat n => natToStr n
  | .negSucc n => '-' :: natToStr (n + 1)

/-- Fractional decimal digits of `q` (with `0 ≤ q < 1`), to at most
`fuel` places; exact when the expansion terminates. -/
def fracDigits : ℕ → ℚ → Str
  | 0, _ => []
  | fuel + 1, q =>
    if q = 0 then []
    else
      let d : ℤ := (q * 10).floor
      Char.ofNat (48 + d.toNat) :: fracDigits fuel (q * 10 - (d : ℚ))

/-- Decimal representation of a non-negative rational. -/
def ratToStrNN (q : ℚ) : Str :=
  let ipart : ℕ := q.floor.toNat
  let fpart : ℚ := q - (q.floor : ℚ)
  if fpart = 0 then natToStr ipart
  else natToStr ipart ++ '.' :: fracDigits 30 fpart

/-- `Number::toString` on our exact number model: exact for the integers
and terminating decimal fractions this pipeline produces (30 fractional
digits otherwise, a faithful cut-off for double-precision values). -/
def ratToStr (q : ℚ) : Str :=
  if q < 0 then '-' :: ratToStrNN (-q) else ratToStrNN q

/-- `','`-join of `Array.prototype.toString`. -/
def joinCommaAux : List Str → Str
  | [] => []
  | [s] => s
  | s :: t :: ts => s ++ ',' :: joinCommaAux (t :: ts)

mutual

/-- ECMAScript `String(v)`: arrays render via `Array.prototype.join`,
plain objects as `"[object Object]"`. -/
def jsToString : JVal → Str
  | .vstr s => s
  | .vnull => "null".data
  | .vundefined => "undefined".data
  | .vbool b => if b then "true".data else "false".data
  | .vnum q => ratToStr q
  | .vnumNaN => "NaN".data
  | .vnumInf p => if p then "Infinity".data else "-Infinity".data
  | .varr xs => joinCommaAux (jsArrElems xs)
  | .vobj _ => "[object Object]".data

/-- `Array.prototype.join` element rendering: `null` and `undefined`
become empty, everything else recurses through `String(v)`. -/
def jsArrElems : List JVal → List Str
  | [] => []
  | .vnull :: xs => [] :: jsArrElems xs
  | .vundefined :: xs => [] :: jsArrElems xs
  | x :: xs => jsToString x :: jsArrElems xs

end

/-- `mapM` over `Except`, evaluating left to right like `Array.map`. -/
def mapExcept (f : α → Except Unit β) : List α → Except Unit (List β)
  | [] => .ok []
  | a :: as => do
    let b ← f a
    let bs ← mapExcept f as
    .ok (b :: bs)

/-- `filterM` over `Except`, evaluating the predicate left to right like
`Array.filter`. -/
def filterExcept (p : α → Except Unit Bool) : List α → Except Unit (List α)
  | [] => .ok []
  | a :: as => do
    let b ← p a
    let r ← filterExcept p as
    .ok (if b then a :: r else r)

/-- `h.type === "phrase"` (strict equality against a string literal). -/
def isPhraseTag : JVal → Bool
  | .vstr s => decide (s = "phrase".data)
  | _ => false

/-- The highlight mapper of `normalizeItem` (ImportDialog.tsx lines
88-94). -/
def normalizeHl (h : JVal) : Except Unit Highlight := do
  let text := jOr (← getField h ("text".data)) (jOr (← getField h ("word".data))
    (jOr (← getField h ("w".data)) (jOr (← getField h ("keyword".data)) (.vstr []))))
  let ipa := jOr (← getField h ("ipa".data)) (jOr (← getField h ("p".data))
    (jOr (← getField h ("pronunciation".data)) (jOr (← getField h ("phonetic".data)) (.vstr []))))
  let meaning := jOr (← getField h ("meaning".data)) (jOr (← getField h ("m".data))
    (jOr (← getField h ("definition".data)) (jOr (← getField h ("zh".data))
      (jOr (← getField h ("chinese".data)) (jOr (← getField h ("mean".data))
        (jOr (← getField h ("translation".data)) (.vstr [])))))))
  let ex := jOr (← getField h ("example".data)) (jOr (← getField h ("x".data))
    (jOr (← getField h ("sentence".data)) (jOr (← getField h ("ex".data)) (.vstr []))))
  let kd ← getField h ("type".data)
  .ok ⟨text, ipa, meaning, ex, if isPhraseTag kd then .phrase else .word⟩

/-- The filter predicate `h => h.text.trim() !== ""` (ImportDialog.tsx
line 96); `.trim()` throws on a non-string receiver. -/
def hlKeepTest (h : Highlight) : Except Unit Bool :=
  match h.text with
  | .vstr s => .ok (decide (jsTrim s ≠ []))
  | _ => .error ()

/-- `Array.isArray(rawHighlights) ? rawHighlights.map(...).filter(...)
: []` (ImportDialog.tsx lines 86-97). -/
def normalizeItemHls : JVal → Except Unit (List Highlight)
  | .varr xs => do
    let ms ← mapExcept normalizeHl xs
    filterExcept hlKeepTest ms
  | _ => .ok []

/-- The normalized record returned by `normalizeItem` (ImportDialog.tsx
lines 99-105). -/
structure NormItem where
  en : JVal
  zh : JVal
  time : Str
  speaker : JVal
  highlights : List Highlight

/-- `normalizeItem` (ImportDialog.tsx lines 71-106). -/
def normalizeItem (item : JVal) : Except Unit NormItem := do
  let english := jOr (← getField item ("en".data)) (jOr (← getField item ("english".data))
    (jOr (← getField item ("text".data)) (jOr (← getField item ("sentence".data))
      (jOr (← getField item ("content".data)) (.vstr [])))))
  let chinese := jOr (← getField item ("zh".data)) (jOr (← getField item ("chinese".data))
    (jOr (← getField item ("translation".data)) (jOr (← getField item ("meaning".data))
      (jOr (← getField item ("trans".data)) (.vstr [])))))
  let timeStr := jsToString (jOr (← getField item ("startTime".data)) (jOr (← getField item ("time".data))
    (jOr (← getField item ("t".data)) (jOr (← getField item ("start".data))
      (jOr (← getField item ("timestamp".data)) (.vstr ("0:00".data)))))))
  let speaker := jOr (← getField item ("speaker".data)) (jOr (← getField item ("name".data))
    (jOr (← getField item ("s".data)) (.vstr ("Speaker".data))))
  let rawHighlights := jOr (← getField item ("highlights".data)) (jOr (← getField item ("h".data))
    (jOr (← getField item ("words".data)) (jOr (← getField item ("vocab".data))
      (jOr (← getField item ("vocabulary".data)) (.varr [])))))
  let highlights ← normalizeItemHls rawHighlights
  .ok ⟨english, chinese, timeStr, speaker, highlights⟩

/-- `x * k` for the positive literal constants 60 and 3600. -/
def jmulc (a : JNum) (k : ℚ) : JNum :=
  match a with
  | .nan => .nan
  | .inf p => .inf p
  | .fin q => .fin (q * k)

/-- JavaScript addition on numbers (`NaN` propagates; opposite infinities
give `NaN`). -/
def jadd : JNum → JNum → JNum
  | .nan, _ => .nan
  | _, .nan => .nan
  | .inf p, .inf q => if p = q then .inf p else .nan
  | .inf p, .fin _ => .inf p
  | .fin _, .inf p => .inf p
  | .fin a, .fin b => .fin (a + b)

/-- The timestamp parsing of `convertRawDataToLines` (ImportDialog.tsx
lines 115-123): two colon-separated parts mean `m * 60 + s`, three mean
`h * 3600 + m * 60 + s`, anything else is `parseFloat` of the whole
string. -/
def timeToSeconds (time : Str) : JNum :=
  let timeParts := splitOnChar ':' time
  if timeParts.length = 2 then
    jadd (jmulc (parseFloat (timeParts.getD 0 [])) 60) (parseFloat (timeParts.getD 1 []))
  else if timeParts.length = 3 then
    jadd (jadd (jmulc (parseFloat (timeParts.getD 0 [])) 3600)
      (jmulc (parseFloat (timeParts.getD 1 [])) 60)) (parseFloat (timeParts.getD 2 []))
  else parseFloat time

/-- Non-`NaN` JavaScript numbers, with their linear order: `-Infinity`,
the finite values, `+Infinity`. -/
abbrev JFin := WithBot (WithTop ℚ)

/-- `isNaN(startTimeSeconds) ? 0 : startTimeSeconds` (ImportDialog.tsx
line 127). -/
def denan : JNum → JFin
  | .nan => (((0 : ℚ) : WithTop ℚ) : JFin)
  | .inf true => ((⊤ : WithTop ℚ) : JFin)
  | .inf false => ⊥
  | .fin q => (((q : WithTop ℚ)) : JFin)

/-- The `startTime` stored for a normalized time string. -/
def startTimeOf (time : Str) : JFin := denan (timeToSeconds time)

/-- `time.includes(':') ? time.split('.')[0] : time` (ImportDialog.tsx
line 128). -/
def timestampOf (time : Str) : Str :=
  if time.contains ':' then (splitOnChar '.' time).getD 0 [] else time

/-- A dialogue segment built by `convertRawDataToLines`; its text fields
come from `any`-typed JSON, so they are `JVal`s. -/
structure JSeg where
  speaker : JVal
  english : JVal
  chinese : JVal
  highlights : List Highlight

/-- A `TranscriptLine` as produced by `convertRawDataToLines`. -/
structure JLine where
  id : Str
  startTime : JFin
  timestamp : Str
  segments : List JSeg

/-- The body of the `data.map((rawItem, index) => ...)` callback
(ImportDialog.tsx lines 112-135); `gen index` models the
`Math.random().toString(36).substr(2, 9)` part of the id. -/
def convLine (gen : ℕ → Str) (p : ℕ × JVal) : Except Unit JLine := do
  let n ← normalizeItem p.2
  .ok ⟨gen p.1 ++ natToStr p.1, startTimeOf n.time, timestampOf n.time,
    [⟨n.speaker, n.en, n.zh, n.highlights⟩]⟩

/-- `convertRawDataToLines` (ImportDialog.tsx lines 111-137); the final
`.sort((a, b) => a.startTime - b.startTime)` is modelled by the stable
`insertionSort` on the key order, which is the unique stable-sorted
result the JS sort must produce (the `NaN` comparator results that arise
for equal infinities are treated as 0, i.e. as ties, by the JS sort). -/
def convertRawDataToLines (gen : ℕ → Str) (data : List JVal) : Except Unit (List JLine) :=
  match mapExcept (convLine gen) (idxFrom 0 data) with
  | .error e => .error e
  | .ok lines => .ok (List.insertionSort (fun a b => a.startTime ≤ b.startTime) lines)

/-- Truncation toward zero, as used by the JS `%` operator. -/
def jsTrunc (q : ℚ) : ℤ := if q < 0 then q.ceil else q.floor

/-- The JS remainder `a % b` (sign of the dividend). -/
def jsMod (a b : ℚ) : ℚ := a - b * (jsTrunc (a / b) : ℚ)

/-- `String.prototype.padStart(2, '0')`. -/
def padStart2 (s : Str) : Str :=
  if s.length < 2 then List.replicate (2 - s.length) '0' ++ s else s

/-- `':'`-join of `formatTime`'s parts. -/
def joinColon : List Str → Str
  | [] => []
  | [s] => s
  | s :: t :: ts => s ++ ':' :: joinColon (t :: ts)

/-- `formatTime` (utils.ts lines 141-152), on the finite numbers its
callers pass. -/
def formatTime (seconds : ℚ) : Str :=
  let h : ℤ := (seconds / 3600).floor
  let m : ℤ := (jsMod seconds 3600 / 60).floor
  let s : ℤ := (jsMod seconds 60).floor
  joinColon ((if 0 < h then [padStart2 (intToStr h)] else []) ++
    [padStart2 (intToStr m), padStart2 (intToStr s)])

/-!  ## Specification-side definitions and lemmas  -/

/-- Phase 1 as the specification describes it: each timestamp line starts
a block whose content is the run of non-timestamp lines that follows it;
lines before the first timestamp line are discarded. -/
def stage1Spec : List Str → List RawBlock
  | [] => []
  | l :: ls =>
    match matchTime l with
    | some t =>
      ⟨l, t, ls.takeWhile (fun x => (matchTime x).isNone)⟩ ::
        stage1Spec (ls.dropWhile (fun x => (matchTime x).isNone))
    | none => stage1Spec ls
termination_by ls => ls.length
decreasing_by
  · simp only [List.length_cons]
    exact Nat.lt_succ_of_le (List.dropWhile_sublist _).length_le
  · simp

theorem stage1Go_eq (ls : List Str) (cur : RawBlock) :
    stage1Go cur ls =
      { cur with contentLines :=
          cur.contentLines ++ ls.takeWhile (fun x => (matchTime x).isNone) } ::
        stage1 (ls.dropWhile (fun x => (matchTime x).isNone)) := by
  induction ls generalizing cur with
  | nil => simp [stage1Go, stage1]
  | cons l ls ih =>
    cases h : matchTime l with
    | some t =>
      simp [stage1Go, stage1, h, List.takeWhile_cons, List.dropWhile_cons]
    | none =>
      simp only [stage1Go, h, ih, List.takeWhile_cons, List.dropWhile_cons,
        Option.isNone_none, if_pos]
      simp

theorem stage1_eq_spec (ls : List Str) : stage1 ls = stage1Spec ls := by
  induction ls using stage1Spec.induct with
  | case1 => simp [stage1, stage1Spec]
  | case2 l ls t h ih =>
    rw [stage1Spec]
    simp only [stage1, h, stage1Go_eq, ih, List.nil_append]
  | case3 l ls h ih =>
    rw [stage1Spec]
    simp only [stage1, h, ih]

theorem stage1Spec_length (ls : List Str) :
    (stage1Spec ls).length = ls.countP (fun l => (matchTime l).isSome) := by
  induction ls using stage1Spec.induct with
  | case1 => simp [stage1Spec]
  | case2 l ls t h ih =>
    have hsplit := List.takeWhile_append_dropWhile
      (p := fun x => (matchTime x).isNone) (l := ls)
    have htake : (ls.takeWhile (fun x => (matchTime x).isNone)).countP
        (fun l => (matchTime l).isSome) = 0 := by
      rw [List.countP_eq_zero]
      intro a ha
      have := List.mem_takeWhile_imp ha
      simp_all [Option.isNone_iff_eq_none]
    calc (stage1Spec (l :: ls)).length
        = (stage1Spec (ls.dropWhile (fun x => (matchTime x).isNone))).length + 1 := by
          rw [stage1Spec]
          simp [h]
      _ = ls.countP (fun l => (matchTime l).isSome) + 1 := by
          rw [ih]
          conv_rhs => rw [← hsplit]
          rw [List.countP_append, htake, Nat.zero_add]
      _ = (l :: ls).countP (fun l => (matchTime l).isSome) := by
          rw [List.countP_cons_of_pos]
          simp [h]
  | case3 l ls h ih =>
    rw [stage1Spec]
    simp only [h, ih]
    rw [List.countP_cons_of_neg]
    simp [h]

/-- The text stored at index `j` of the Chinese segment list (the
subscript `chineseSegments[chiIdx]`). -/
def textAt (chis : List Seg) (j : ℕ) : Str := (chis.getD j default).text

/-- The pick rule as the specification words it: the first index `j`
(in enumeration order) that is not yet used and whose speaker is
identical to the English speaker; failing that, the same list index `i`
provided it is in range and unused. -/
def specPick (chis : List Seg) (used : List ℕ) (i : ℕ) (sp : Str) : Option ℕ :=
  match (idxFrom 0 chis).find? (fun p => !used.contains p.1 && decide (p.2.speaker = sp)) with
  | some p => some p.1
  | none => if i < chis.length && !used.contains i then some i else none

/-- The pairing loop driven by the specification's pick rule. -/
def specMergeAux (chis : List Seg) : List Seg → ℕ → List ℕ → List DialogueSegment × List ℕ
  | [], _, used => ([], used)
  | e :: es, i, used =>
    match specPick chis used i e.speaker with
    | some j =>
      let r := specMergeAux chis es (i + 1) (j :: used)
      (⟨e.speaker, e.text, (chis.getD j default).text, []⟩ :: r.1, r.2)
    | none =>
      let r := specMergeAux chis es (i + 1) used
      (⟨e.speaker, e.text, [], []⟩ :: r.1, r.2)

/-- The leftovers as the specification words them: every unused Chinese
segment, in order, appended with an empty English side. -/
def specLeftovers (used : List ℕ) (chis : List Seg) : List DialogueSegment :=
  ((idxFrom 0 chis).filter (fun p => !used.contains p.1)).map
    (fun p => ⟨p.2.speaker, [], p.2.text, []⟩)

/-- Phase 2 on one block, as the specification words it. -/
def specBlockSegs (ls : List Str) : List DialogueSegment :=
  let st := classify ls
  let r := specMergeAux st.chi st.eng 0 []
  r.1 ++ specLeftovers r.2 st.chi

theorem findChiAux_eq (used : List ℕ) (sp : Str) :
    ∀ (cs : List Seg) (j : ℕ),
      findChiAux used sp cs j =
        ((idxFrom j cs).find?
          (fun p => !used.contains p.1 && decide (p.2.speaker = sp))).map Prod.fst := by
  intro cs
  induction cs with
  | nil => intro j; rfl
  | cons c cs ih =>
    intro j
    rw [findChiAux, idxFrom, List.find?_cons]
    by_cases h1 : j ∈ used
    · simp [h1, ih (j + 1)]
    · by_cases h2 : c.speaker = sp
      · simp [h1, h2]
      · simp [h1, h2, ih (j + 1)]

theorem pickChi_eq_spec (chis : List Seg) (used : List ℕ) (i : ℕ) (sp : Str) :
    pickChi chis used i sp = specPick chis used i sp := by
  rw [pickChi, specPick, findChiAux_eq]
  cases h : (idxFrom 0 chis).find?
      (fun p => !used.contains p.1 && decide (p.2.speaker = sp)) with
  | none => simp
  | some p => simp

theorem mergeAux_eq_spec (chis : List Seg) :
    ∀ (es : List Seg) (i : ℕ) (used : List ℕ),
      mergeAux chis es i used = specMergeAux chis es i used := by
  intro es
  induction es with
  | nil => intro i used; rfl
  | cons e es ih =>
    intro i used
    rw [mergeAux, specMergeAux, pickChi_eq_spec]
    cases specPick chis used i e.speaker with
    | none => simp [ih]
    | some j => simp [ih]

theorem leftoversAux_eq_spec (used : List ℕ) :
    ∀ (cs : List Seg) (j : ℕ),
      leftoversAux used cs j =
        ((idxFrom j cs).filter (fun p => !used.contains p.1)).map
          (fun p => ⟨p.2.speaker, [], p.2.text, []⟩) := by
  intro cs
  induction cs with
  | nil => intro j; rfl
  | cons c cs ih =>
    intro j
    rw [leftoversAux, idxFrom, List.filter_cons]
    by_cases h : j ∈ used
    · simp [h, ih (j + 1)]
    · simp [h, ih (j + 1)]

theorem idxFrom_map_snd (l : List α) : ∀ n, (idxFrom n l).map Prod.snd = l := by
  induction l with
  | nil => intro n; rfl
  | cons a as ih => intro n; simp [idxFrom, ih]

theorem idxFrom_map_fst (l : List α) : ∀ n, (idxFrom n l).map Prod.fst = List.range' n l.length := by
  induction l with
  | nil => intro n; rfl
  | cons a as ih => intro n; simp [idxFrom, ih, List.range'_succ]

theorem idxFrom_fst_ge (l : List α) : ∀ n p, p ∈ idxFrom n l → n ≤ p.1 := by
  induction l with
  | nil => intro n p h; simp [idxFrom] at h
  | cons a as ih =>
    intro n p h
    rcases List.mem_cons.mp h with h | h
    · rw [h]
    · exact Nat.le_of_succ_le (ih (n + 1) p h)

theorem idxFrom_fst_lt (l : List α) : ∀ n p, p ∈ idxFrom n l → p.1 < n + l.length := by
  induction l with
  | nil => intro n p h; simp [idxFrom] at h
  | cons a as ih =>
    intro n p h
    rcases List.mem_cons.mp h with h | h
    · rw [h]; simp
    · have := ih (n + 1) p h
      simp only [List.length_cons]
      omega

theorem idxFrom_snd_eq [Inhabited α] (l : List α) :
    ∀ n p, p ∈ idxFrom n l → p.2 = l.getD (p.1 - n) default := by
  induction l with
  | nil => intro n p h; simp [idxFrom] at h
  | cons a as ih =>
    intro n p h
    rcases List.mem_cons.mp h with h | h
    · rw [h]; simp
    · have h1 := ih (n + 1) p h
      have h2 := idxFrom_fst_ge as (n + 1) p h
      have h3 : p.1 - n = (p.1 - (n + 1)) + 1 := by omega
      rw [h1, h3]
      rfl

theorem pickChi_some (chis : List Seg) (used : List ℕ) (i : ℕ) (sp : Str) (j : ℕ)
    (h : pickChi chis used i sp = some j) : j < chis.length ∧ j ∉ used := by
  rw [pickChi, findChiAux_eq] at h
  cases hf : (idxFrom 0 chis).find?
      (fun p => !used.contains p.1 && decide (p.2.speaker = sp)) with
  | some p =>
    rw [hf] at h
    simp only [Option.map_some'] at h
    have hpred := List.find?_some hf
    have hmem := List.mem_of_find?_eq_some hf
    have hlt := idxFrom_fst_lt chis 0 p hmem
    simp only [Bool.and_eq_true, Bool.not_eq_true'] at hpred
    cases h
    exact ⟨by simpa using hlt, by simpa using hpred.1⟩
  | none =>
    rw [hf] at h
    simp only [Option.map_none'] at h
    split at h
    · next hc =>
      simp only [Bool.and_eq_true, decide_eq_true_eq, Bool.not_eq_true'] at hc
      cases h
      exact ⟨hc.1, by simpa using hc.2⟩
    · exact absurd h (by simp)

theorem mergeAux_english (chis : List Seg) :
    ∀ (es : List Seg) (i : ℕ) (used : List ℕ),
      (mergeAux chis es i used).1.map DialogueSegment.english = es.map Seg.text := by
  intro es
  induction es with
  | nil => intro i used; rfl
  | cons e es ih =>
    intro i used
    rw [mergeAux]
    cases pickChi chis used i e.speaker with
    | some j => simp [ih]
    | none => simp [ih]

theorem leftoversAux_english (used : List ℕ) :
    ∀ (cs : List Seg) (j : ℕ) seg, seg ∈ leftoversAux used cs j → seg.english = [] := by
  intro cs
  induction cs with
  | nil => intro j seg h; simp [leftoversAux] at h
  | cons c cs ih =>
    intro j seg h
    rw [leftoversAux] at h
    by_cases hc : used.contains j
    · rw [if_pos hc] at h; exact ih (j + 1) seg h
    · rw [if_neg hc] at h
      rcases List.mem_cons.mp h with h | h
      · rw [h]
      · exact ih (j + 1) seg h

/-- The pairing loop uses each Chinese index at most once: the picked
indices are a duplicate-free list of fresh in-range indices, the final
used set is exactly the old one extended by them, and the Chinese sides
of the produced segments are, as a multiset, the texts at the picked
indices plus one empty string per unmatched English segment. -/
theorem mergeAux_invariant (chis : List Seg) :
    ∀ (es : List Seg) (i : ℕ) (used : List ℕ),
      ∃ picks : List ℕ,
        (mergeAux chis es i used).2 = picks.reverse ++ used
        ∧ picks.Nodup
        ∧ (∀ j ∈ picks, j < chis.length ∧ j ∉ used)
        ∧ picks.length ≤ es.length
        ∧ (((mergeAux chis es i used).1.map DialogueSegment.chinese : List Str) : Multiset Str)
            = (↑(picks.map (textAt chis)) : Multiset Str)
              + Multiset.replicate (es.length - picks.length) [] := by
  intro es
  induction es with
  | nil =>
    intro i used
    exact ⟨[], rfl, List.nodup_nil, by simp, by simp, by simp [mergeAux]⟩
  | cons e es ih =>
    intro i used
    rw [mergeAux]
    cases hp : pickChi chis used i e.speaker with
    | some j =>
      obtain ⟨hjlt, hjused⟩ := pickChi_some chis used i e.speaker j hp
      obtain ⟨picks, h2, hnd, hfresh, hlen, hmul⟩ := ih (i + 1) (j :: used)
      refine ⟨j :: picks, ?_, ?_, ?_, ?_, ?_⟩
      · simpa using h2
      · refine List.nodup_cons.mpr ⟨?_, hnd⟩
        intro hj
        exact (hfresh j hj).2 (List.mem_cons_self j used)
      · intro k hk
        rcases List.mem_cons.mp hk with hk | hk
        · rw [hk]; exact ⟨hjlt, hjused⟩
        · obtain ⟨hk1, hk2⟩ := hfresh k hk
          exact ⟨hk1, fun hmem => hk2 (List.mem_cons_of_mem j hmem)⟩
      · simpa using hlen
      · have hsub : es.length + 1 - (picks.length + 1) = es.length - picks.length := by omega
        simp only [List.map_cons, List.length_cons, hsub, ← Multiset.cons_coe, hmul,
          Multiset.cons_add]
        rfl
    | none =>
      obtain ⟨picks, h2, hnd, hfresh, hlen, hmul⟩ := ih (i + 1) used
      refine ⟨picks, h2, hnd, hfresh, Nat.le_succ_of_le hlen, ?_⟩
      have hsub : es.length + 1 - picks.length = (es.length - picks.length) + 1 := by omega
      simp only [List.map_cons, List.length_cons, hsub, ← Multiset.cons_coe, hmul,
        Multiset.replicate_succ]
      rw [Multiset.add_cons]

theorem map_fst_filter_fst (q : ℕ → Bool) :
    ∀ l : List (ℕ × Seg), (l.filter (fun p => q p.1)).map Prod.fst = (l.map Prod.fst).filter q := by
  intro l
  induction l with
  | nil => rfl
  | cons a as ih =>
    rw [List.filter_cons, List.map_cons, List.filter_cons]
    by_cases h : q a.1
    · simp [h, ih]
    · simp [h, ih]

theorem range'_map_textAt (chis : List Seg) :
    (List.range' 0 chis.length).map (textAt chis) = chis.map Seg.text := by
  rw [← idxFrom_map_fst, List.map_map]
  calc (idxFrom 0 chis).map (textAt chis ∘ Prod.fst)
      = (idxFrom 0 chis).map (Seg.text ∘ Prod.snd) := by
        refine List.map_congr_left ?_
        intro p hp
        have h := idxFrom_snd_eq chis 0 p hp
        simp only [Nat.sub_zero] at h
        simp [Function.comp, textAt, h]
    _ = chis.map Seg.text := by rw [← List.map_map, idxFrom_map_snd]

/-- The Chinese texts of the merged pairs plus the Chinese texts of the
leftovers are a permutation of all the Chinese texts. -/
theorem picks_leftover_perm (chis : List Seg) (picks : List ℕ) (u : List ℕ)
    (hu : ∀ j, j ∈ u ↔ j ∈ picks) (hnd : picks.Nodup)
    (hlt : ∀ j ∈ picks, j < chis.length) :
    List.Perm
      (picks.map (textAt chis) ++
        ((idxFrom 0 chis).filter (fun p => !u.contains p.1)).map (fun p => p.2.text))
      (chis.map Seg.text) := by
  have hpred : ((idxFrom 0 chis).filter (fun p => !u.contains p.1))
      = ((idxFrom 0 chis).filter (fun p => !decide (p.1 ∈ picks))) := by
    refine List.filter_congr ?_
    intro p _
    simp [hu p.1]
  have hA : ((idxFrom 0 chis).filter (fun p => !decide (p.1 ∈ picks))).map (fun p => p.2.text)
      = ((List.range' 0 chis.length).filter (fun j => !decide (j ∈ picks))).map (textAt chis) := by
    rw [← idxFrom_map_fst, ← map_fst_filter_fst, List.map_map]
    refine List.map_congr_left ?_
    intro p hp
    have h := idxFrom_snd_eq chis 0 p (List.mem_of_mem_filter hp)
    simp only [Nat.sub_zero] at h
    simp [Function.comp, textAt, h]
  have hyes : List.Perm picks
      ((List.range' 0 chis.length).filter (fun j => decide (j ∈ picks))) := by
    refine (List.perm_ext_iff_of_nodup hnd ((List.nodup_range' _ _).filter _)).mpr ?_
    intro a
    simp only [List.mem_filter, List.mem_range'_1, decide_eq_true_eq]
    constructor
    · intro ha
      exact ⟨⟨Nat.zero_le a, by simpa using hlt a ha⟩, ha⟩
    · intro ha
      exact ha.2
  rw [hpred, hA]
  have step1 : List.Perm
      (picks.map (textAt chis) ++
        ((List.range' 0 chis.length).filter (fun j => !decide (j ∈ picks))).map (textAt chis))
      (((List.range' 0 chis.length).filter (fun j => decide (j ∈ picks)) ++
        (List.range' 0 chis.length).filter (fun j => !decide (j ∈ picks))).map (textAt chis)) := by
    rw [List.map_append]
    exact List.Perm.append_right _ (hyes.map _)
  have step2 : List.Perm
      (((List.range' 0 chis.length).filter (fun j => decide (j ∈ picks)) ++
        (List.range' 0 chis.length).filter (fun j => !decide (j ∈ picks))).map (textAt chis))
      ((List.range' 0 chis.length).map (textAt chis)) :=
    (List.filter_append_perm _ _).map _
  have hfin := step1.trans step2
  rw [range'_map_textAt] at hfin
  exact hfin

/-!  ## Claim theorems  -/

/-- C1.  For every input string, `parseTranscript` returns a sequence of
`TranscriptLine` records sorted by non-decreasing `startTime`, and for
every input array, `convertRawDataToLines` likewise returns its records
sorted by non-decreasing `startTime` (the output is time-ordered). -/
theorem c1_outputs_time_ordered :
    (∀ (gen : ℕ → Str) (text : Str),
      List.Sorted (fun a b => a.startTime ≤ b.startTime) (parseTranscript gen text))
    ∧ (∀ (gen : ℕ → Str) (data : List JVal) (lines : List JLine),
      convertRawDataToLines gen data = .ok lines →
      List.Sorted (fun a b => a.startTime ≤ b.startTime) lines) := by
  constructor
  · intro gen text
    haveI : IsTotal TranscriptLine (fun a b => a.startTime ≤ b.startTime) :=
      ⟨fun a b => Nat.le_total _ _⟩
    haveI : IsTrans TranscriptLine (fun a b => a.startTime ≤ b.startTime) :=
      ⟨fun _ _ _ => Nat.le_trans⟩
    exact List.sorted_insertionSort _ _
  · intro gen data lines h
    haveI : IsTotal JLine (fun a b => a.startTime ≤ b.startTime) :=
      ⟨fun a b => le_total _ _⟩
    haveI : IsTrans JLine (fun a b => a.startTime ≤ b.startTime) :=
      ⟨fun _ _ _ => le_trans⟩
    unfold convertRawDataToLines at h
    cases hm : mapExcept (convLine gen) (idxFrom 0 data) with
    | error e => rw [hm] at h; exact absurd h (by simp)
    | ok v =>
      rw [hm] at h
      simp only [Except.ok.injEq] at h
      rw [← h]
      exact List.sorted_insertionSort _ _

/-- Witness for C1: a concrete one-record input on which
`convertRawDataToLines` succeeds, with its hypothesis discharged by
evaluation. -/
theorem c1_witness :
    List.Sorted (fun (a b : JLine) => a.startTime ≤ b.startTime)
      [⟨"0".data, (((0 : ℚ) : WithTop ℚ) : JFin), "x".data,
        [⟨JVal.vstr ("Speaker".data), JVal.vstr [], JVal.vstr [], []⟩]⟩] :=
  c1_outputs_time_ordered.2 (fun _ => [])
    [JVal.vobj [(("time".data : Str), JVal.vstr "x".data)]] _ rfl

/-- C2.  `parseTranscript` tokenizes free text into timestamped blocks:
after splitting on newlines, trimming, and dropping empty lines, every
line matching `^\d{1,2}:\d{2}$` starts a new block whose `startTime` is
`minutes * 60 + seconds`; every other line is appended to the content of
the most recently started block; all lines before the first timestamp
line are discarded; and the number of output blocks equals the number of
timestamp lines. -/
theorem c2_tokenizes_into_blocks :
    (∀ text : Str, stage1 (cleanLines text) = stage1Spec (cleanLines text))
    ∧ (∀ text : Str, (stage1 (cleanLines text)).length
        = (cleanLines text).countP (fun l => (matchTime l).isSome))
    ∧ (∀ a c d : Char, matchTime [a, ':', c, d]
        = if a.isDigit && c.isDigit && d.isDigit
          then some (dval a * 60 + (10 * dval c + dval d)) else none)
    ∧ (∀ a b c d : Char, matchTime [a, b, ':', c, d]
        = if a.isDigit && b.isDigit && c.isDigit && d.isDigit
          then some ((10 * dval a + dval b) * 60 + (10 * dval c + dval d)) else none) :=
  ⟨fun text => stage1_eq_spec (cleanLines text),
   fun text => by rw [stage1_eq_spec]; exact stage1Spec_length _,
   fun _ _ _ => by simp [matchTime],
   fun _ _ _ _ => by simp [matchTime]⟩

/-- C3.  Within each block, `parseTranscript` pairs English and Chinese
lines by speaker and order: lines of the form `speaker: text` (ASCII or
fullwidth colon) are classified as Chinese iff the text contains a
character of `isChineseChar`'s ranges, otherwise English; each English
segment, in order, is merged with the first not-yet-used Chinese segment
having an identical speaker, else with the one at the same list index if
in range and unused, else gets an empty Chinese side; and every unused
Chinese segment is appended after the English-led pairs with an empty
English side. -/
theorem c3_pairs_by_speaker_and_order :
    (∀ ls : List Str, blockSegs ls = specBlockSegs ls)
    ∧ (∀ (st : CState) (l sp txt : Str), matchSpeaker l = some (sp, txt) →
        classifyStep st l =
          if isChineseStr txt then
            { st with chi := st.chi ++ [⟨sp, txt⟩], lastIsChinese := true }
          else
            { st with eng := st.eng ++ [⟨sp, txt⟩], lastIsChinese := false }) := by
  constructor
  · intro ls
    show mergeSegments (classify ls).eng (classify ls).chi = _
    unfold mergeSegments specBlockSegs specLeftovers
    dsimp only
    rw [mergeAux_eq_spec, leftoversAux_eq_spec]
  · intro st l sp txt h
    rw [classifyStep, h]

/-- Witness for C3: the classification branch applied to a concrete
Chinese content line. -/
theorem c3_witness :
    classifyStep ⟨[], [], false⟩ ("A: 你好".data) =
      (if isChineseStr ("你好".data) then
        CState.mk [] ([] ++ [⟨"A".data, "你好".data⟩]) true
      else
        CState.mk ([] ++ [⟨"A".data, "你好".data⟩]) [] false) :=
  c3_pairs_by_speaker_and_order.2 ⟨[], [], false⟩ ("A: 你好".data)
    ("A".data) ("你好".data) rfl

theorem mergeAux_highlights (chis : List Seg) :
    ∀ (es : List Seg) (i : ℕ) (used : List ℕ) seg,
      seg ∈ (mergeAux chis es i used).1 → seg.highlights = [] := by
  intro es
  induction es with
  | nil => intro i used seg h; simp [mergeAux] at h
  | cons e es ih =>
    intro i used seg h
    rw [mergeAux] at h
    cases hp : pickChi chis used i e.speaker with
    | some j =>
      rw [hp] at h
      rcases List.mem_cons.mp h with h | h
      · rw [h]
      · exact ih (i + 1) (j :: used) seg h
    | none =>
      rw [hp] at h
      rcases List.mem_cons.mp h with h | h
      · rw [h]
      · exact ih (i + 1) used seg h

theorem leftoversAux_highlights (used : List ℕ) :
    ∀ (cs : List Seg) (j : ℕ) seg,
      seg ∈ leftoversAux used cs j → seg.highlights = [] := by
  intro cs
  induction cs with
  | nil => intro j seg h; simp [leftoversAux] at h
  | cons c cs ih =>
    intro j seg h
    rw [leftoversAux] at h
    by_cases hc : used.contains j
    · rw [if_pos hc] at h
      exact ih (j + 1) seg h
    · rw [if_neg hc] at h
      rcases List.mem_cons.mp h with h | h
      · rw [h]
      · exact ih (j + 1) seg h

theorem blockSegs_highlights (ls : List Str) :
    ∀ seg ∈ blockSegs ls, seg.highlights = [] := by
  intro seg h
  unfold blockSegs mergeSegments at h
  rcases List.mem_append.mp h with h | h
  · exact mergeAux_highlights _ _ _ _ _ h
  · exact leftoversAux_highlights _ _ _ _ h

/-- C8.  For every input string, every `DialogueSegment` in every
`TranscriptLine` returned by `parseTranscript` has an empty `highlights`
list (free-text parsing never produces vocabulary highlights). -/
theorem c8_highlights_always_empty (gen : ℕ → Str) (text : Str)
    (line : TranscriptLine) (seg : DialogueSegment)
    (hl : line ∈ parseTranscript gen text) (hs : seg ∈ line.segments) :
    seg.highlights = [] := by
  unfold parseTranscript at hl
  dsimp only at hl
  have hl' := (List.perm_insertionSort
    (fun a b : TranscriptLine => a.startTime ≤ b.startTime) _).mem_iff.mp hl
  rcases List.mem_map.mp hl' with ⟨p, _, hp⟩
  rw [← hp] at hs
  exact blockSegs_highlights _ seg hs

/-- C9.  `parseTranscript` neither drops nor duplicates dialogue content
within a block: in a block's merged segment list, the English-led pairs
carry every English segment exactly once in original order, everything
after them has an empty English side, and the Chinese sides are, as a
multiset, exactly the Chinese segment texts plus one empty string per
unmatched English segment. -/
theorem c9_content_preserved (eng chis : List Seg) :
    ((mergeSegments eng chis).take eng.length).map DialogueSegment.english = eng.map Seg.text
    ∧ (∀ seg ∈ (mergeSegments eng chis).drop eng.length, seg.english = [])
    ∧ ∃ k, (((mergeSegments eng chis).map DialogueSegment.chinese : List Str) : Multiset Str)
        = (↑(chis.map Seg.text) : Multiset Str) + Multiset.replicate k [] := by
  obtain ⟨picks, h2, hnd, hfresh, hlen, hmul⟩ := mergeAux_invariant chis eng 0 []
  have hAlen : (mergeAux chis eng 0 []).1.length = eng.length := by
    have h := congrArg List.length (mergeAux_english chis eng 0 [])
    simpa using h
  have hms : mergeSegments eng chis
      = (mergeAux chis eng 0 []).1 ++ leftoversAux (mergeAux chis eng 0 []).2 chis 0 := rfl
  refine ⟨?_, ?_, ?_⟩
  · rw [hms, ← hAlen, List.take_left, mergeAux_english]
  · intro seg hseg
    rw [hms, ← hAlen, List.drop_left] at hseg
    exact leftoversAux_english _ _ _ seg hseg
  · refine ⟨eng.length - picks.length, ?_⟩
    rw [hms, List.map_append]
    have hL : (leftoversAux (mergeAux chis eng 0 []).2 chis 0).map DialogueSegment.chinese
        = ((idxFrom 0 chis).filter
            (fun p => !((mergeAux chis eng 0 []).2).contains p.1)).map (fun p => p.2.text) := by
      rw [leftoversAux_eq_spec, List.map_map]
      rfl
    rw [hL]
    have hsplit : (↑((mergeAux chis eng 0 []).1.map DialogueSegment.chinese ++
        ((idxFrom 0 chis).filter
          (fun p => !((mergeAux chis eng 0 []).2).contains p.1)).map (fun p => p.2.text)) :
          Multiset Str)
        = (↑((mergeAux chis eng 0 []).1.map DialogueSegment.chinese) : Multiset Str)
          + ↑(((idxFrom 0 chis).filter
              (fun p => !((mergeAux chis eng 0 []).2).contains p.1)).map (fun p => p.2.text)) :=
      rfl
    rw [hsplit, hmul]
    have hu : ∀ j, j ∈ (mergeAux chis eng 0 []).2 ↔ j ∈ picks := by
      intro j
      rw [h2]
      simp
    have hperm := picks_leftover_perm chis picks ((mergeAux chis eng 0 []).2) hu hnd
      (fun j hj => (hfresh j hj).1)
    have heq : (↑(picks.map (textAt chis)) : Multiset Str)
        + ↑(((idxFrom 0 chis).filter
            (fun p => !((mergeAux chis eng 0 []).2).contains p.1)).map (fun p => p.2.text))
        = ↑(chis.map Seg.text) :=
      Multiset.coe_eq_coe.mpr hperm
    rw [add_right_comm, heq]

/-- Witness for C8 at a concrete transcript. -/
theorem c8_witness :
    (⟨"A".data, "hi".data, [], []⟩ : DialogueSegment).highlights = [] :=
  c8_highlights_always_empty (fun _ => []) ("0:00\nA: hi".data)
    ⟨[], 0, "0:00".data, [⟨"A".data, "hi".data, [], []⟩]⟩ _
    (List.mem_singleton.mpr rfl) (List.mem_singleton.mpr rfl)

/-- Reduction of `Except` bind on a success. -/
theorem exbind_ok (a : α) (f : α → Except Unit β) :
    (Except.ok a >>= f : Except Unit β) = f a := rfl

/-- Reduction of `Except` bind on an error. -/
theorem exbind_err (f : α → Except Unit β) :
    (Except.error () >>= f : Except Unit β) = .error () := rfl

/-- The first truthy value of a list, else the default: the meaning the
specification assigns to a fallback chain `a || b || … || dflt`. -/
def firstTruthy (vs : List JVal) (d : JVal) : JVal :=
  match vs.find? truthy with
  | some v => v
  | none => d

/-- Resolve a fallback chain of field names on `item`, as the
specification words it: read every listed field, take the first truthy
value, else the default. -/
def chainKeys (item : JVal) (ks : List Str) (d : JVal) : Except Unit JVal := do
  let vs ← mapExcept (getField item) ks
  .ok (firstTruthy vs d)

theorem firstTruthy_nil (d : JVal) : firstTruthy [] d = d := rfl

theorem firstTruthy_cons (v : JVal) (vs : List JVal) (d : JVal) :
    firstTruthy (v :: vs) d = jOr v (firstTruthy vs d) := by
  rw [firstTruthy, jOr, List.find?_cons]
  by_cases h : truthy v
  · simp [h]
  · simp [h, firstTruthy]

/-- `normalizeItem`'s highlight mapper as the specification words it. -/
def specNormalizeHl (h : JVal) : Except Unit Highlight := do
  let text ← chainKeys h ["text".data, "word".data, "w".data, "keyword".data] (.vstr [])
  let ipa ← chainKeys h ["ipa".data, "p".data, "pronunciation".data, "phonetic".data] (.vstr [])
  let meaning ← chainKeys h ["meaning".data, "m".data, "definition".data, "zh".data,
    "chinese".data, "mean".data, "translation".data] (.vstr [])
  let ex ← chainKeys h ["example".data, "x".data, "sentence".data, "ex".data] (.vstr [])
  let kd ← getField h ("type".data)
  .ok ⟨text, ipa, meaning, ex, if isPhraseTag kd then .phrase else .word⟩

/-- The highlight-list normalization driven by the specification-side
mapper. -/
def specItemHls : JVal → Except Unit (List Highlight)
  | .varr xs => do
    let ms ← mapExcept specNormalizeHl xs
    filterExcept hlKeepTest ms
  | _ => .ok []

/-- `normalizeItem` as the specification words it: every field resolved
by its fallback chain via `chainKeys`, the time stringified, the
highlights deep-mapped. -/
def specNormalizeItem (item : JVal) : Except Unit NormItem := do
  let english ← chainKeys item ["en".data, "english".data, "text".data, "sentence".data,
    "content".data] (.vstr [])
  let chinese ← chainKeys item ["zh".data, "chinese".data, "translation".data,
    "meaning".data, "trans".data] (.vstr [])
  let timev ← chainKeys item ["startTime".data, "time".data, "t".data, "start".data,
    "timestamp".data] (.vstr ("0:00".data))
  let speaker ← chainKeys item ["speaker".data, "name".data, "s".data] (.vstr ("Speaker".data))
  let raw ← chainKeys item ["highlights".data, "h".data, "words".data, "vocab".data,
    "vocabulary".data] (.varr [])
  let highlights ← specItemHls raw
  .ok ⟨english, chinese, jsToString timev, speaker, highlights⟩

theorem mapExcept_congr (f g : α → Except Unit β) (hfg : ∀ a, f a = g a) :
    ∀ l : List α, mapExcept f l = mapExcept g l := by
  intro l
  induction l with
  | nil => rfl
  | cons a as ih => rw [mapExcept, mapExcept, hfg, ih]

theorem normalizeHl_eq_spec (h : JVal) : normalizeHl h = specNormalizeHl h := by
  cases h <;>
    simp only [normalizeHl, specNormalizeHl, chainKeys, mapExcept, getField,
      exbind_ok, exbind_err, firstTruthy_cons, firstTruthy_nil]

theorem specItemHls_eq (v : JVal) : normalizeItemHls v = specItemHls v := by
  cases v <;>
    simp only [normalizeItemHls, specItemHls,
      mapExcept_congr normalizeHl specNormalizeHl normalizeHl_eq_spec]

/-- C4.  `normalizeItem` resolves arbitrary JSON field names by explicit
fallback chains, taking the first truthy field in order: `english` from
en/english/text/sentence/content (default `""`), `chinese` from
zh/chinese/translation/meaning/trans (default `""`), `time` from
startTime/time/t/start/timestamp (default `"0:00"`), `speaker` from
speaker/name/s (default `"Speaker"`), `highlights` from
highlights/h/words/vocab/vocabulary (default `[]`), and each highlight's
fields by their own listed chains. -/
theorem c4_fallback_chains :
    (∀ item : JVal, normalizeItem item = specNormalizeItem item)
    ∧ (∀ h : JVal, normalizeHl h = specNormalizeHl h) := by
  refine ⟨?_, normalizeHl_eq_spec⟩
  intro item
  cases item <;>
    simp only [normalizeItem, specNormalizeItem, chainKeys, mapExcept, getField,
      exbind_ok, exbind_err, firstTruthy_cons, firstTruthy_nil, specItemHls_eq]

theorem splitOnChar_ne_nil (sep : Char) : ∀ t : Str, splitOnChar sep t ≠ [] := by
  intro t
  cases t with
  | nil => simp [splitOnChar]
  | cons c cs =>
    rw [splitOnChar]
    cases splitOnChar sep cs with
    | nil => simp
    | cons h t => by_cases hc : c = sep <;> simp [hc]

theorem splitOnChar_not_mem (sep : Char) :
    ∀ a : Str, sep ∉ a → splitOnChar sep a = [a] := by
  intro a
  induction a with
  | nil => intro _; rfl
  | cons c cs ih =>
    intro h
    have hc : c ≠ sep := fun he => h (he ▸ List.mem_cons_self c cs)
    have hcs : sep ∉ cs := fun hm => h (List.mem_cons_of_mem c hm)
    rw [splitOnChar, ih hcs]
    simp [hc]

theorem splitOnChar_append (sep : Char) (a b : Str) (ha : sep ∉ a) :
    splitOnChar sep (a ++ sep :: b) = a :: splitOnChar sep b := by
  induction a with
  | nil =>
    rw [List.nil_append, splitOnChar]
    obtain ⟨h, t, heq⟩ := List.exists_cons_of_ne_nil (splitOnChar_ne_nil sep b)
    rw [heq]
    simp
  | cons c cs ih =>
    have hc : c ≠ sep := fun he => ha (he ▸ List.mem_cons_self c cs)
    have hcs : sep ∉ cs := fun hm => ha (List.mem_cons_of_mem c hm)
    rw [List.cons_append, splitOnChar, ih hcs]
    simp [hc]

theorem splitOnChar_length (sep : Char) :
    ∀ t : Str, (splitOnChar sep t).length = t.count sep + 1 := by
  intro t
  induction t with
  | nil => simp [splitOnChar]
  | cons c cs ih =>
    obtain ⟨h, t', heq⟩ := List.exists_cons_of_ne_nil (splitOnChar_ne_nil sep cs)
    rw [splitOnChar, heq]
    rw [heq] at ih
    dsimp only
    by_cases hc : c = sep
    · subst hc
      rw [if_pos rfl]
      simp only [List.length_cons] at ih ⊢
      rw [List.count_cons_self]
      omega
    · rw [if_neg hc, List.count_cons_of_ne (Ne.symm hc)]
      simpa using ih

/-- C5.  `convertRawDataToLines` parses heterogeneous timestamp formats
into seconds: a time string with exactly two colon-separated parts
`m:s` yields `m * 60 + s` seconds, exactly three parts `h:m:s` yields
`h * 3600 + m * 60 + s`, any other shape is parsed as a plain number, and
a `NaN` result makes the stored `startTime` 0. -/
theorem c5_timestamp_formats :
    (∀ a b : Str, ':' ∉ a → ':' ∉ b →
      timeToSeconds (a ++ ':' :: b) = jadd (jmulc (parseFloat a) 60) (parseFloat b))
    ∧ (∀ a b c : Str, ':' ∉ a → ':' ∉ b → ':' ∉ c →
      timeToSeconds (a ++ ':' :: (b ++ ':' :: c))
        = jadd (jadd (jmulc (parseFloat a) 3600) (jmulc (parseFloat b) 60)) (parseFloat c))
    ∧ (∀ t : Str, t.count ':' ≠ 1 → t.count ':' ≠ 2 → timeToSeconds t = parseFloat t)
    ∧ (∀ t : Str, timeToSeconds t = JNum.nan →
        startTimeOf t = (((0 : ℚ) : WithTop ℚ) : JFin)) := by
  refine ⟨?_, ?_, ?_, ?_⟩
  · intro a b ha hb
    rw [timeToSeconds, splitOnChar_append _ _ _ ha, splitOnChar_not_mem _ _ hb]
    simp
  · intro a b c ha hb hc
    rw [timeToSeconds, splitOnChar_append _ _ _ ha, splitOnChar_append _ _ _ hb,
      splitOnChar_not_mem _ _ hc]
    simp
  · intro t h1 h2
    rw [timeToSeconds]
    have hl := splitOnChar_length ':' t
    rw [if_neg (by omega), if_neg (by omega)]
  · intro t h
    rw [startTimeOf, h]
    rfl

/-- Witness for C5 on the concrete time strings `1:30` and `x`. -/
theorem c5_witness :
    (':' ∉ ("1".data : Str) ∧ ':' ∉ ("30".data : Str))
    ∧ timeToSeconds ("1".data ++ ':' :: "30".data)
        = jadd (jmulc (parseFloat "1".data) 60) (parseFloat "30".data)
    ∧ timeToSeconds ("x".data) = JNum.nan
    ∧ startTimeOf ("x".data) = (((0 : ℚ) : WithTop ℚ) : JFin) :=
  ⟨⟨by decide, by decide⟩,
   c5_timestamp_formats.1 ("1".data) ("30".data) (by decide) (by decide),
   rfl,
   c5_timestamp_formats.2.2.2 ("x".data) rfl⟩

/-- `Array.isArray`. -/
def isVarr : JVal → Bool
  | .varr _ => true
  | _ => false

/-- The resolved `rawHighlights` chain of `normalizeItem` on an object
(ImportDialog.tsx line 85). -/
def rawHighlightsOf (fs : List (Str × JVal)) : JVal :=
  jOr (lookupField fs ("highlights".data)) (jOr (lookupField fs ("h".data))
    (jOr (lookupField fs ("words".data)) (jOr (lookupField fs ("vocab".data))
      (jOr (lookupField fs ("vocabulary".data)) (.varr [])))))

/-- The resolved `english` chain of `normalizeItem` on an object. -/
def englishOf (fs : List (Str × JVal)) : JVal :=
  jOr (lookupField fs ("en".data)) (jOr (lookupField fs ("english".data))
    (jOr (lookupField fs ("text".data)) (jOr (lookupField fs ("sentence".data))
      (jOr (lookupField fs ("content".data)) (.vstr [])))))

/-- The resolved `chinese` chain of `normalizeItem` on an object. -/
def chineseOf (fs : List (Str × JVal)) : JVal :=
  jOr (lookupField fs ("zh".data)) (jOr (lookupField fs ("chinese".data))
    (jOr (lookupField fs ("translation".data)) (jOr (lookupField fs ("meaning".data))
      (jOr (lookupField fs ("trans".data)) (.vstr [])))))

/-- The resolved time chain of `normalizeItem` on an object (before
stringification). -/
def timeValOf (fs : List (Str × JVal)) : JVal :=
  jOr (lookupField fs ("startTime".data)) (jOr (lookupField fs ("time".data))
    (jOr (lookupField fs ("t".data)) (jOr (lookupField fs ("start".data))
      (jOr (lookupField fs ("timestamp".data)) (.vstr ("0:00".data))))))

/-- The resolved `speaker` chain of `normalizeItem` on an object. -/
def speakerOf (fs : List (Str × JVal)) : JVal :=
  jOr (lookupField fs ("speaker".data)) (jOr (lookupField fs ("name".data))
    (jOr (lookupField fs ("s".data)) (.vstr ("Speaker".data))))

theorem normalizeItem_vobj (fs : List (Str × JVal)) :
    normalizeItem (.vobj fs) =
      (normalizeItemHls (rawHighlightsOf fs) >>= fun hls =>
        .ok ⟨englishOf fs, chineseOf fs, jsToString (timeValOf fs), speakerOf fs, hls⟩) := rfl

theorem filterExcept_ok_prop (p : α → Except Unit Bool) :
    ∀ (l r : List α), filterExcept p l = .ok r → ∀ a ∈ r, p a = .ok true := by
  intro l
  induction l with
  | nil =>
    intro r h a ha
    rw [filterExcept] at h
    cases h
    simp at ha
  | cons x xs ih =>
    intro r h a ha
    rw [filterExcept] at h
    cases hx : p x with
    | error e => cases e; rw [hx, exbind_err] at h; exact absurd h (by simp)
    | ok b =>
      rw [hx, exbind_ok] at h
      cases hr : filterExcept p xs with
      | error e => cases e; rw [hr, exbind_err] at h; exact absurd h (by simp)
      | ok r' =>
        rw [hr, exbind_ok] at h
        injection h with h2
        cases b with
        | true =>
          rw [if_pos rfl] at h2
          rw [← h2] at ha
          rcases List.mem_cons.mp ha with ha | ha
          · rw [ha]; exact hx
          · exact ih r' hr a ha
        | false =>
          rw [if_neg (by simp)] at h2
          rw [← h2] at ha
          exact ih r' hr a ha

theorem normalizeItemHls_prop (raw : JVal) (hls : List Highlight)
    (h : normalizeItemHls raw = .ok hls) :
    ∀ hl ∈ hls, ∃ s : Str, hl.text = .vstr s ∧ jsTrim s ≠ [] := by
  cases raw with
  | varr xs =>
    rw [normalizeItemHls] at h
    cases hm : mapExcept normalizeHl xs with
    | error e => cases e; rw [hm, exbind_err] at h; exact absurd h (by simp)
    | ok ms =>
      rw [hm, exbind_ok] at h
      intro hl hmem
      have hk := filterExcept_ok_prop hlKeepTest ms hls h hl hmem
      unfold hlKeepTest at hk
      cases ht : hl.text <;> rw [ht] at hk <;> simp at hk
      case vstr s => exact ⟨s, rfl, hk⟩
  | vundefined => simp only [normalizeItemHls] at h; cases h; simp
  | vnull => simp only [normalizeItemHls] at h; cases h; simp
  | vbool b => simp only [normalizeItemHls] at h; cases h; simp
  | vnum q => simp only [normalizeItemHls] at h; cases h; simp
  | vnumNaN => simp only [normalizeItemHls] at h; cases h; simp
  | vnumInf p => simp only [normalizeItemHls] at h; cases h; simp
  | vstr s => simp only [normalizeItemHls] at h; cases h; simp
  | vobj fs => simp only [normalizeItemHls] at h; cases h; simp

theorem bind_ok_inv (m : Except Unit α) (f : α → Except Unit β) (b : β)
    (h : (m >>= f) = .ok b) : ∃ a, m = .ok a ∧ f a = .ok b := by
  cases m with
  | error e => cases e; rw [exbind_err] at h; exact absurd h (by simp)
  | ok a => exact ⟨a, rfl, h⟩

theorem normalizeItem_ok_highlights (item : JVal) (r : NormItem)
    (h : normalizeItem item = .ok r) :
    ∃ raw, normalizeItemHls raw = .ok r.highlights := by
  cases item with
  | vnull => exact absurd h (by simp [normalizeItem, getField, exbind_err])
  | vundefined => exact absurd h (by simp [normalizeItem, getField, exbind_err])
  | vbool b =>
    simp only [normalizeItem, getField, exbind_ok] at h
    obtain ⟨hls, h1, h2⟩ := bind_ok_inv _ _ _ h
    injection h2 with h3
    exact ⟨_, by rw [← h3]; exact h1⟩
  | vnum q =>
    simp only [normalizeItem, getField, exbind_ok] at h
    obtain ⟨hls, h1, h2⟩ := bind_ok_inv _ _ _ h
    injection h2 with h3
    exact ⟨_, by rw [← h3]; exact h1⟩
  | vnumNaN =>
    simp only [normalizeItem, getField, exbind_ok] at h
    obtain ⟨hls, h1, h2⟩ := bind_ok_inv _ _ _ h
    injection h2 with h3
    exact ⟨_, by rw [← h3]; exact h1⟩
  | vnumInf p =>
    simp only [normalizeItem, getField, exbind_ok] at h
    obtain ⟨hls, h1, h2⟩ := bind_ok_inv _ _ _ h
    injection h2 with h3
    exact ⟨_, by rw [← h3]; exact h1⟩
  | vstr s =>
    simp only [normalizeItem, getField, exbind_ok] at h
    obtain ⟨hls, h1, h2⟩ := bind_ok_inv _ _ _ h
    injection h2 with h3
    exact ⟨_, by rw [← h3]; exact h1⟩
  | varr xs =>
    simp only [normalizeItem, getField, exbind_ok] at h
    obtain ⟨hls, h1, h2⟩ := bind_ok_inv _ _ _ h
    injection h2 with h3
    exact ⟨_, by rw [← h3]; exact h1⟩
  | vobj fs =>
    simp only [normalizeItem, getField, exbind_ok] at h
    obtain ⟨hls, h1, h2⟩ := bind_ok_inv _ _ _ h
    injection h2 with h3
    exact ⟨_, by rw [← h3]; exact h1⟩

/-- C10.  Every `Highlight` in the output of `normalizeItem` has a text
that is a string and non-empty after trimming (empty / whitespace-only
highlights are filtered out), and when the raw highlights field resolves
to a non-array the result is the empty list rather than an error. -/
theorem c10_highlights_text_nonempty :
    (∀ (item : JVal) (r : NormItem), normalizeItem item = .ok r →
      ∀ hl ∈ r.highlights, ∃ s : Str, hl.text = .vstr s ∧ jsTrim s ≠ [])
    ∧ (∀ fs : List (Str × JVal), isVarr (rawHighlightsOf fs) = false →
      ∃ r, normalizeItem (.vobj fs) = .ok r ∧ r.highlights = []) := by
  constructor
  · intro item r h hl hmem
    obtain ⟨raw, hraw⟩ := normalizeItem_ok_highlights item r h
    exact normalizeItemHls_prop raw r.highlights hraw hl hmem
  · intro fs hna
    have hnil : normalizeItemHls (rawHighlightsOf fs) = .ok [] := by
      cases hv : rawHighlightsOf fs <;> simp_all [normalizeItemHls, isVarr]
    rw [normalizeItem_vobj, hnil, exbind_ok]
    exact ⟨_, rfl, rfl⟩

/-- Witness for C10: a concrete item whose whitespace-only highlight is
filtered away, and a concrete item with a non-array highlights field. -/
theorem c10_witness :
    (∃ s : Str, (⟨.vstr ("hi".data), .vstr [], .vstr [], .vstr [], .word⟩ : Highlight).text
        = .vstr s ∧ jsTrim s ≠ [])
    ∧ ∃ r, normalizeItem (.vobj [(("highlights".data : Str), .vstr ("x".data))]) = .ok r
        ∧ r.highlights = [] :=
  ⟨c10_highlights_text_nonempty.1
      (.vobj [(("highlights".data : Str),
        .varr [.vobj [(("text".data : Str), .vstr (" ".data))],
               .vobj [(("text".data : Str), .vstr ("hi".data))]])])
      ⟨.vstr [], .vstr [], "0:00".data, .vstr ("Speaker".data),
        [⟨.vstr ("hi".data), .vstr [], .vstr [], .vstr [], .word⟩]⟩
      rfl
      ⟨.vstr ("hi".data), .vstr [], .vstr [], .vstr [], .word⟩
      (List.mem_singleton.mpr rfl),
   c10_highlights_text_nonempty.2 [(("highlights".data : Str), .vstr ("x".data))] rfl⟩

/-- Erase the randomly generated `id` of a parse-side line. -/
def eraseId (l : TranscriptLine) : TranscriptLine := { l with id := [] }

/-- Erase the randomly generated `id` of an import-side line. -/
def eraseIdJ (l : JLine) : JLine := { l with id := [] }

theorem eraseId_startTime (l : TranscriptLine) : (eraseId l).startTime = l.startTime := rfl

theorem eraseIdJ_startTime (l : JLine) : (eraseIdJ l).startTime = l.startTime := rfl

theorem eraseId_orderedInsert (a : TranscriptLine) :
    ∀ l : List TranscriptLine,
      (List.orderedInsert (fun x y => x.startTime ≤ y.startTime) a l).map eraseId
        = List.orderedInsert (fun x y => x.startTime ≤ y.startTime) (eraseId a)
            (l.map eraseId) := by
  intro l
  induction l with
  | nil => rfl
  | cons b t ih =>
    simp only [List.map_cons, List.orderedInsert, eraseId_startTime]
    by_cases hab : a.startTime ≤ b.startTime
    · rw [if_pos hab, if_pos hab]
      simp
    · rw [if_neg hab, if_neg hab, List.map_cons, ih]

theorem eraseId_insertionSort :
    ∀ l : List TranscriptLine,
      (List.insertionSort (fun x y => x.startTime ≤ y.startTime) l).map eraseId
        = List.insertionSort (fun x y => x.startTime ≤ y.startTime) (l.map eraseId) := by
  intro l
  induction l with
  | nil => rfl
  | cons a t ih =>
    simp only [List.insertionSort, List.map_cons, eraseId_orderedInsert, ih]

theorem eraseIdJ_orderedInsert (a : JLine) :
    ∀ l : List JLine,
      (List.orderedInsert (fun x y => x.startTime ≤ y.startTime) a l).map eraseIdJ
        = List.orderedInsert (fun x y => x.startTime ≤ y.startTime) (eraseIdJ a)
            (l.map eraseIdJ) := by
  intro l
  induction l with
  | nil => rfl
  | cons b t ih =>
    simp only [List.map_cons, List.orderedInsert, eraseIdJ_startTime]
    by_cases hab : a.startTime ≤ b.startTime
    · rw [if_pos hab, if_pos hab]
      simp
    · rw [if_neg hab, if_neg hab, List.map_cons, ih]

theorem eraseIdJ_insertionSort :
    ∀ l : List JLine,
      (List.insertionSort (fun x y => x.startTime ≤ y.startTime) l).map eraseIdJ
        = List.insertionSort (fun x y => x.startTime ≤ y.startTime) (l.map eraseIdJ) := by
  intro l
  induction l with
  | nil => rfl
  | cons a t ih =>
    simp only [List.insertionSort, List.map_cons, eraseIdJ_orderedInsert, ih]

/-- C6, counterexample.  The claim "two evaluations on the same input
produce identical outputs, with no dependence on anything outside the
input" fails: both producers store a fresh `Math.random()`-derived `id`
(modelled by the generator stream), so two evaluations with different
random draws differ on the concrete input `"0:00"`. -/
theorem c6_counterexample :
    parseTranscript (fun _ => "a".data) ("0:00".data)
      ≠ parseTranscript (fun _ => "b".data) ("0:00".data) := by
  intro h
  exact absurd (congrArg (List.map TranscriptLine.id) h) (by decide)

/-- C6, amended.  Up to the randomly generated `id` fields, both
producers are pure functions of their input: erasing ids, the outputs do
not depend on the random stream (and cannot depend on anything else,
since the model functions take nothing else). -/
theorem c6_amended_pure_up_to_ids :
    (∀ (g₁ g₂ : ℕ → Str) (text : Str),
      (parseTranscript g₁ text).map eraseId = (parseTranscript g₂ text).map eraseId)
    ∧ (∀ (g₁ g₂ : ℕ → Str) (data : List JVal),
      (convertRawDataToLines g₁ data).map (List.map eraseIdJ)
        = (convertRawDataToLines g₂ data).map (List.map eraseIdJ)) := by
  constructor
  · intro g₁ g₂ text
    have h₁ : parseTranscript g₁ text
        = List.insertionSort (fun a b => a.startTime ≤ b.startTime)
          ((idxFrom 0 (stage1 (cleanLines text))).map
            (fun p => TranscriptLine.mk (g₁ p.1) p.2.startTime p.2.timestamp
              (blockSegs p.2.contentLines))) := rfl
    have h₂ : parseTranscript g₂ text
        = List.insertionSort (fun a b => a.startTime ≤ b.startTime)
          ((idxFrom 0 (stage1 (cleanLines text))).map
            (fun p => TranscriptLine.mk (g₂ p.1) p.2.startTime p.2.timestamp
              (blockSegs p.2.contentLines))) := rfl
    rw [h₁, h₂, eraseId_insertionSort, eraseId_insertionSort, List.map_map, List.map_map]
    refine congrArg _ (List.map_congr_left (fun p _ => rfl))
  · intro g₁ g₂ data
    have key : ∀ l : List (ℕ × JVal),
        (mapExcept (convLine g₁) l).map (List.map eraseIdJ)
          = (mapExcept (convLine g₂) l).map (List.map eraseIdJ) := by
      intro l
      induction l with
      | nil => rfl
      | cons p t ih =>
        rw [mapExcept, mapExcept]
        cases hn : normalizeItem p.2 with
        | error e =>
          cases e
          have e1 : convLine g₁ p = .error () := by unfold convLine; rw [hn, exbind_err]
          have e2 : convLine g₂ p = .error () := by unfold convLine; rw [hn, exbind_err]
          rw [e1, e2, exbind_err, exbind_err]
        | ok n =>
          have e1 : convLine g₁ p = .ok ⟨g₁ p.1 ++ natToStr p.1, startTimeOf n.time,
              timestampOf n.time, [⟨n.speaker, n.en, n.zh, n.highlights⟩]⟩ := by
            unfold convLine; rw [hn, exbind_ok]
          have e2 : convLine g₂ p = .ok ⟨g₂ p.1 ++ natToStr p.1, startTimeOf n.time,
              timestampOf n.time, [⟨n.speaker, n.en, n.zh, n.highlights⟩]⟩ := by
            unfold convLine; rw [hn, exbind_ok]
          rw [e1, e2, exbind_ok, exbind_ok]
          cases ha : mapExcept (convLine g₁) t with
          | error ea =>
            cases ea
            cases hb : mapExcept (convLine g₂) t with
            | error eb => cases eb; rfl
            | ok bs => rw [ha, hb] at ih; simp [Except.map] at ih
          | ok as =>
            cases hb : mapExcept (convLine g₂) t with
            | error eb => cases eb; rw [ha, hb] at ih; simp [Except.map] at ih
            | ok bs =>
              rw [ha, hb] at ih
              simp only [Except.map] at ih
              injection ih with ih2
              rw [exbind_ok, exbind_ok]
              simp only [Except.map, List.map_cons, ih2]
              rfl
    have hk := key (idxFrom 0 data)
    unfold convertRawDataToLines
    cases ha : mapExcept (convLine g₁) (idxFrom 0 data) with
    | error ea =>
      cases ea
      cases hb : mapExcept (convLine g₂) (idxFrom 0 data) with
      | error eb => cases eb; rfl
      | ok bs => rw [ha, hb] at hk; simp [Except.map] at hk
    | ok as =>
      cases hb : mapExcept (convLine g₂) (idxFrom 0 data) with
      | error eb => cases eb; rw [ha, hb] at hk; simp [Except.map] at hk
      | ok bs =>
        rw [ha, hb] at hk
        simp only [Except.map] at hk
        injection hk with hk2
        simp only [Except.map]
        congr 1
        rw [eraseIdJ_insertionSort, eraseIdJ_insertionSort, hk2]

theorem findChiCost_le (used : List ℕ) (sp : Str) :
    ∀ (cs : List Seg) (j : ℕ), findChiCost used sp cs j ≤ cs.length := by
  intro cs
  induction cs with
  | nil => intro j; simp [findChiCost]
  | cons c cs ih =>
    intro j
    rw [findChiCost]
    by_cases h : (!used.contains j && decide (c.speaker = sp)) = true
    · rw [if_pos h]; simp
    · rw [if_neg h]
      have := ih (j + 1)
      simp only [List.length_cons]
      omega

theorem mergeCostAux_le (chis : List Seg) :
    ∀ (es : List Seg) (i : ℕ) (used : List ℕ),
      mergeCostAux chis es i used ≤ es.length * chis.length := by
  intro es
  induction es with
  | nil => intro i used; simp [mergeCostAux]
  | cons e es ih =>
    intro i used
    rw [mergeCostAux]
    have hfind := findChiCost_le used e.speaker chis 0
    cases pickChi chis used i e.speaker with
    | some j =>
      have := ih (i + 1) (j :: used)
      simp only [List.length_cons, Nat.succ_mul]
      omega
    | none =>
      have := ih (i + 1) used
      simp only [List.length_cons, Nat.succ_mul]
      omega

theorem findChiCost_miss (used : List ℕ) (sp : Str) :
    ∀ (cs : List Seg) (j : ℕ), (∀ c ∈ cs, c.speaker ≠ sp) →
      findChiCost used sp cs j = cs.length := by
  intro cs
  induction cs with
  | nil => intro j _; rfl
  | cons c cs ih =>
    intro j hne
    rw [findChiCost]
    have hc : c.speaker ≠ sp := hne c (List.mem_cons_self c cs)
    rw [if_neg (by simp [hc])]
    rw [ih (j + 1) (fun x hx => hne x (List.mem_cons_of_mem c hx))]
    simp only [List.length_cons]
    omega

theorem mergeCost_mismatch (n : ℕ) :
    ∀ (m : ℕ) (i : ℕ) (used : List ℕ),
      mergeCostAux (List.replicate n ⟨"c".data, "好".data⟩)
        (List.replicate m ⟨"e".data, "x".data⟩) i used = m * n := by
  intro m
  induction m with
  | zero => intro i used; simp [mergeCostAux]
  | succ m ih =>
    intro i used
    rw [List.replicate_succ, mergeCostAux]
    have hc : findChiCost used ("e".data) (List.replicate n ⟨"c".data, "好".data⟩) 0 = n := by
      rw [findChiCost_miss]
      · simp
      · intro c hc
        rw [List.eq_of_mem_replicate hc]
        decide
    rw [hc]
    cases pickChi (List.replicate n ⟨"c".data, "好".data⟩) used i ("e".data) with
    | some j =>
      dsimp only
      rw [ih (i + 1) (j :: used), Nat.succ_mul, Nat.add_comm]
    | none =>
      dsimp only
      rw [ih (i + 1) used, Nat.succ_mul, Nat.add_comm]

/-- C7, counterexample.  The claim that each input record is visited a
bounded, constant number of times fails for the pairing step: its inner
scans over the Chinese segments total `|english| * |chinese|` on blocks
of mutually mismatched speakers, which exceeds every constant multiple of
the number of segments. -/
theorem c7_counterexample :
    ¬ ∃ C : ℕ, ∀ eng chis : List Seg,
      mergeCost eng chis ≤ C * (eng.length + chis.length) := by
  rintro ⟨C, hC⟩
  have h := hC (List.replicate (2 * C + 1) ⟨"e".data, "x".data⟩)
    (List.replicate (2 * C + 1) ⟨"c".data, "好".data⟩)
  rw [mergeCost, mergeCost_mismatch] at h
  simp only [List.length_replicate] at h
  nlinarith

/-- C7, amended.  All three operations terminate on every input (the
model functions are total), and the pairing's total inner-scan count is
at most `|english| * |chinese|`; but the pairing is not single-pass: no
constant bounds its scan count per input segment. -/
theorem c7_amended_terminating_but_quadratic :
    (∀ (gen : ℕ → Str) (text : Str), ∃ r, parseTranscript gen text = r)
    ∧ (∀ (gen : ℕ → Str) (data : List JVal), ∃ r, convertRawDataToLines gen data = r)
    ∧ (∀ q : ℚ, ∃ s, formatTime q = s)
    ∧ (∀ eng chis : List Seg, mergeCost eng chis ≤ eng.length * chis.length)
    ∧ (∀ C : ℕ, ∃ eng chis : List Seg,
        C * (eng.length + chis.length) < mergeCost eng chis) := by
  refine ⟨fun gen text => ⟨_, rfl⟩, fun gen data => ⟨_, rfl⟩, fun q => ⟨_, rfl⟩,
    fun eng chis => mergeCostAux_le chis eng 0 [], ?_⟩
  intro C
  refine ⟨List.replicate (2 * C + 1) ⟨"e".data, "x".data⟩,
    List.replicate (2 * C + 1) ⟨"c".data, "好".data⟩, ?_⟩
  rw [mergeCost, mergeCost_mismatch]
  simp only [List.length_replicate]
  nlinarith

end TS
